import Mathlib

/-!
Shallow embedding of the cantus firmus generator (`01_cantus_firmus.py` and
`common/scales.py`).  Python lists become Lean `List Int` values, the hidden
global random source becomes explicit streams of natural-number draws
(`random.choice t` on a draw `r` picks `t.getD (r % t.length) 0`), and the
mutable `CantusFirmus` object becomes an explicit state record threaded
through the operations.  Exceptions become explicit result values.
-/

namespace CF

/-- Major scale semitone offsets relative to the root, from `common/scales.py`. -/
def MAJOR_SCALE : List Int := [0, 2, 4, 5, 7, 9, 11]

/-- Natural minor scale semitone offsets relative to the root, from `common/scales.py`. -/
def MINOR_SCALE : List Int := [0, 2, 3, 5, 7, 8, 10]

/-- Range between the lowest and the highest note (Rule 6). -/
def MAX_RANGE : Int := 7

/-- Number of retries after which the set of rules is considered impossible. -/
def MAX_CYCLES : Nat := 100000

/-- The parallel arrays built during one generation attempt: the mutable
`self._degrees`, `self._intervals`, `self._directions` of one cycle. -/
structure Attempt where
  degrees : List Int
  intervals : List Int
  directions : List Int
deriving Repr, DecidableEq

/-- Python `min(xs)` on a nonempty list of ints (0 on `[]`, a case the code
never evaluates because every validated list has length ≥ 8). -/
def pyMin : List Int → Int
  | [] => 0
  | x :: xs => xs.foldl min x

/-- Python `max(xs)` on a nonempty list of ints (0 on `[]`). -/
def pyMax : List Int → Int
  | [] => 0
  | x :: xs => xs.foldl max x

/-- `CantusFirmus._choose_direction`: if the previous interval is a fourth or
larger, go in the opposite direction (Rule 11); otherwise `random.choice((1, -1))`
driven by the draw `r`. -/
def choose_direction (st : Attempt) (i : Nat) (r : Nat) : Int :=
  if 1 < i ∧ 2 < (st.intervals.getD (i - 1) 0).natAbs then
    st.directions.getD (i - 1) 0 * (-1)
  else
    [1, -1].getD (r % 2) 0

/-- `CantusFirmus._choose_interval`: if the two previous intervals are a P4 or
larger choose from `(1, 2)` (Rule 12), otherwise from `(1, 2, 3)`. -/
def choose_interval (st : Attempt) (i : Nat) (r : Nat) : Int :=
  if 1 < i ∧ 2 < (st.intervals.getD (i - 1) 0).natAbs
      ∧ 2 < (st.intervals.getD (i - 2) 0).natAbs then
    [1, 2].getD (r % 2) 0
  else
    [1, 2, 3].getD (r % 3) 0

/-- `CantusFirmus._make_next_note`: choose interval and direction, multiply,
add to the previous degree, and append all three values. -/
def make_next_note (st : Attempt) (i : Nat) (rIval rDir : Nat) : Attempt :=
  let interval := choose_interval st i rIval
  let direction := choose_direction st i rDir
  let signed := interval * direction
  let note := st.degrees.getD (i - 1) 0 + signed
  ⟨st.degrees ++ [note], st.intervals ++ [signed], st.directions ++ [direction]⟩

/-- The generation loop `for i in range(1, self._length)` unrolled: `build_steps n`
is the attempt state after the steps `i = 1, …, n`, starting from the seeded
state `degrees = [0]`, `intervals = [0]`, `directions = [0]`.  `rI i` and `rD i`
are the interval and direction draws consumed at step `i`. -/
def build_steps (rI rD : Nat → Nat) : Nat → Attempt
  | 0 => ⟨[0], [0], [0]⟩
  | n + 1 => make_next_note (build_steps rI rD n) (n + 1) (rI (n + 1)) (rD (n + 1))

/-- One full generation attempt of the requested length. -/
def gen_attempt (length : Nat) (rI rD : Nat → Nat) : Attempt :=
  build_steps rI rD (length - 1)

/-- `CantusFirmus._check_rule_3`: the sequence should end on the tonic. -/
def check_rule_3 (degrees : List Int) : Bool :=
  degrees.getLastD 0 == 0

/-- `CantusFirmus._check_rule_4`: the second-to-last degree is in `(1, -1, 6, -6)`. -/
def check_rule_4 (degrees : List Int) : Bool :=
  let d := degrees.getD (degrees.length - 2) 0
  d == 1 || d == -1 || d == 6 || d == -6

/-- `CantusFirmus._check_rule_6`: the range between the lowest and the highest
note is at most `MAX_RANGE`. -/
def check_rule_6 (degrees : List Int) : Bool :=
  let lowest := pyMin degrees
  let highest := pyMax degrees
  !(decide (MAX_RANGE < |highest - lowest|))

/-- `CantusFirmus._check_rule_7`: a single climax that appears only once, not
before the middle, and at least on the 3rd step.  `length` is `self._length`. -/
def check_rule_7 (degrees : List Int) (length : Nat) : Bool :=
  let highest := pyMax degrees
  if 1 < degrees.count highest then false
  else if degrees.indexOf highest < length / 2 then false
  else if highest < 3 then false
  else true

/-- `CantusFirmus._check_rule_8`: count windows `directions[i : i+3]` equal to
`[1,1,1]` or `[-1,-1,-1]` for `i` in `range(0, len(degrees) - 3)` and accept
when at least one slope was counted. -/
def check_rule_8 (degrees directions : List Int) : Bool :=
  let windows := (List.range (degrees.length - 3)).map (fun i => (directions.drop i).take 3)
  let up_slopes_count := windows.countP (fun w => w == [1, 1, 1])
  let down_slopes_count := windows.countP (fun w => w == [-1, -1, -1])
  decide (0 < up_slopes_count) || decide (0 < down_slopes_count)

/-- `CantusFirmus._check_rule_10`: collect the degree windows
`degrees[i : i+2]` for `i` in `range(0, self._length - 2 + 1)` (that is,
`length - 1` starts) and accept when no window occurs more than once. -/
def check_rule_10 (degrees : List Int) (length : Nat) : Bool :=
  let motives := (List.range (length - 1)).map (fun i => (degrees.drop i).take 2)
  motives.all (fun m => decide (motives.count m ≤ 1))

/-- `CantusFirmus._check_rule_13`: in the major scale, degree −1 must be
followed by 0 and degree 6 by 7; any other scale passes. -/
def check_rule_13 (degrees : List Int) (length : Nat) (scale : List Int) : Bool :=
  if scale == MAJOR_SCALE then
    (List.range (length - 1)).all (fun i =>
      !(degrees.getD i 0 == -1 && !(degrees.getD (i + 1) 0 == 0)) &&
      !(degrees.getD i 0 == 6 && !(degrees.getD (i + 1) 0 == 7)))
  else
    true

/-- `CantusFirmus._check_rules`: the conjunction of the seven predicates, in
source order with short-circuiting. -/
def check_rules (length : Nat) (scale : List Int) (a : Attempt) : Bool :=
  check_rule_3 a.degrees && check_rule_4 a.degrees && check_rule_6 a.degrees &&
    check_rule_7 a.degrees length && check_rule_8 a.degrees a.directions &&
    check_rule_10 a.degrees length && check_rule_13 a.degrees length scale

/-- The mutable fields of a `CantusFirmus` instance.  Python's initial `None`
length and scale are modelled as `0` and `[]`; no claim observes them before
they are assigned. -/
structure CFState where
  length : Nat
  scale : List Int
  degrees : List Int
  intervals : List Int
  directions : List Int
  cycles : Nat
deriving Repr, DecidableEq

/-- `CantusFirmus.__init__`. -/
def initState : CFState := ⟨0, [], [], [], [], 0⟩

/-- Outcome of `make_notes`: normal return, the length `Exception`, or the
retry-ceiling `Exception`. -/
inductive MNResult where
  | accepted
  | configError
  | exhausted
deriving Repr, DecidableEq

/-- The `while success is False` loop of `CantusFirmus.make_notes`.  `rI k` and
`rD k` are the draw streams consumed by the attempt generated when the cycle
counter reads `k`. -/
def make_notes_loop (length : Nat) (scale : List Int) (rI rD : Nat → Nat → Nat)
    (st : CFState) : CFState × MNResult :=
  if MAX_CYCLES < st.cycles then (st, .exhausted)
  else
    let att := gen_attempt length (rI st.cycles) (rD st.cycles)
    let st' : CFState :=
      { st with degrees := att.degrees, intervals := att.intervals,
                directions := att.directions, cycles := st.cycles + 1 }
    if check_rules length scale att then (st', .accepted)
    else make_notes_loop length scale rI rD st'
termination_by MAX_CYCLES + 1 - st.cycles
decreasing_by simp only [MAX_CYCLES] at *; omega

/-- `CantusFirmus.make_notes`: reject a length outside `[8, 16]` before doing
anything, otherwise store the length and scale, reset the cycle counter, and
run the generate-and-validate loop. -/
def make_notes (st : CFState) (length : Nat) (scale : List Int)
    (rI rD : Nat → Nat → Nat) : CFState × MNResult :=
  if length < 8 ∨ 16 < length then (st, .configError)
  else
    make_notes_loop length scale rI rD { st with length := length, scale := scale, cycles := 0 }

/-- The `Exception` raised by `get_notes` when `self._degrees` is empty. -/
inductive PRError where
  | invalidState
deriving Repr, DecidableEq

/-- The scale-table index that `get_notes` computes for a degree `d`:
`d - 7` above the octave, `d` inside it, `7 + d` below it. -/
def scale_index (degree : Int) : Int :=
  if 6 < degree then degree - 7
  else if 0 ≤ degree then degree
  else 7 + degree

/-- `CantusFirmus.get_notes`: raise if no degrees are stored, otherwise wrap
each degree into one octave and convert it to a MIDI note number. -/
def get_notes (st : CFState) (base_note : Int) : Except PRError (List Int) :=
  if st.degrees.length == 0 then .error .invalidState
  else .ok (st.degrees.map (fun degree =>
    if 6 < degree then base_note + st.scale.getD (degree - 7).toNat 0 + 12
    else if 0 ≤ degree then base_note + st.scale.getD degree.toNat 0
    else base_note + st.scale.getD (7 + degree).toNat 0 - 12))

/-! ### Helper lemmas -/

theorem getD_concat_lt (l : List Int) (x : Int) {j : Nat} (h : j < l.length) :
    (l ++ [x]).getD j 0 = l.getD j 0 :=
  List.getD_append l [x] 0 j h

theorem getD_concat_len (l : List Int) (x : Int) :
    (l ++ [x]).getD l.length 0 = x := by
  rw [List.getD_append_right l [x] 0 l.length le_rfl]
  simp

theorem foldl_max_mem (xs : List Int) (x : Int) : xs.foldl max x ∈ x :: xs := by
  induction xs generalizing x with
  | nil => simp
  | cons y ys ih =>
    have h := ih (max x y)
    rcases List.mem_cons.mp h with h | h
    · rcases max_choice x y with hm | hm <;> rw [List.foldl_cons, h, hm] <;> simp
    · simp [List.foldl_cons, List.mem_cons.mpr (Or.inr (List.mem_cons.mpr (Or.inr h)))]

theorem init_le_foldl_max (xs : List Int) (x : Int) : x ≤ xs.foldl max x := by
  induction xs generalizing x with
  | nil => simp
  | cons z zs ih => rw [List.foldl_cons]; exact le_trans (le_max_left x z) (ih (max x z))

theorem mem_le_foldl_max (xs : List Int) (x y : Int) (h : y ∈ xs) : y ≤ xs.foldl max x := by
  induction xs generalizing x with
  | nil => cases h
  | cons z zs ih =>
    rw [List.foldl_cons]
    rcases List.mem_cons.mp h with rfl | h
    · exact le_trans (le_max_right x y) (init_le_foldl_max zs (max x y))
    · exact ih (max x z) h

theorem foldl_min_mem (xs : List Int) (x : Int) : xs.foldl min x ∈ x :: xs := by
  induction xs generalizing x with
  | nil => simp
  | cons y ys ih =>
    have h := ih (min x y)
    rcases List.mem_cons.mp h with h | h
    · rcases min_choice x y with hm | hm <;> rw [List.foldl_cons, h, hm] <;> simp
    · simp [List.foldl_cons, List.mem_cons.mpr (Or.inr (List.mem_cons.mpr (Or.inr h)))]

theorem foldl_min_le_init (xs : List Int) (x : Int) : xs.foldl min x ≤ x := by
  induction xs generalizing x with
  | nil => simp
  | cons z zs ih => rw [List.foldl_cons]; exact le_trans (ih (min x z)) (min_le_left x z)

theorem foldl_min_le_mem (xs : List Int) (x y : Int) (h : y ∈ xs) : xs.foldl min x ≤ y := by
  induction xs generalizing x with
  | nil => cases h
  | cons z zs ih =>
    rw [List.foldl_cons]
    rcases List.mem_cons.mp h with rfl | h
    · exact le_trans (foldl_min_le_init zs (min x y)) (min_le_right x y)
    · exact ih (min x z) h

theorem pyMax_mem {l : List Int} (h : l ≠ []) : pyMax l ∈ l := by
  match l with
  | x :: xs => exact foldl_max_mem xs x

theorem le_pyMax {l : List Int} {y : Int} (h : y ∈ l) : y ≤ pyMax l := by
  match l with
  | x :: xs =>
    rcases List.mem_cons.mp h with rfl | h
    · exact init_le_foldl_max xs y
    · exact mem_le_foldl_max xs x y h

theorem pyMin_mem {l : List Int} (h : l ≠ []) : pyMin l ∈ l := by
  match l with
  | x :: xs => exact foldl_min_mem xs x

theorem pyMin_le {l : List Int} {y : Int} (h : y ∈ l) : pyMin l ≤ y := by
  match l with
  | x :: xs =>
    rcases List.mem_cons.mp h with rfl | h
    · exact foldl_min_le_init xs y
    · exact foldl_min_le_mem xs x y h

theorem build_steps_lengths (rI rD : Nat → Nat) (n : Nat) :
    (build_steps rI rD n).degrees.length = n + 1 ∧
    (build_steps rI rD n).intervals.length = n + 1 ∧
    (build_steps rI rD n).directions.length = n + 1 := by
  induction n with
  | zero => simp [build_steps]
  | succ n ih =>
    obtain ⟨h1, h2, h3⟩ := ih
    simp [build_steps, make_next_note, h1, h2, h3]

theorem build_steps_intervals_getD_zero (rI rD : Nat → Nat) (n : Nat) :
    (build_steps rI rD n).intervals.getD 0 0 = 0 := by
  induction n with
  | zero => simp [build_steps]
  | succ n ih =>
    have hlen := (build_steps_lengths rI rD n).2.1
    rw [build_steps, make_next_note]
    exact (getD_concat_lt _ _ (by omega)).trans ih

theorem build_steps_directions_getD_zero (rI rD : Nat → Nat) (n : Nat) :
    (build_steps rI rD n).directions.getD 0 0 = 0 := by
  induction n with
  | zero => simp [build_steps]
  | succ n ih =>
    have hlen := (build_steps_lengths rI rD n).2.2
    rw [build_steps, make_next_note]
    exact (getD_concat_lt _ _ (by omega)).trans ih

theorem build_steps_intervals_stable (rI rD : Nat → Nat) (n j : Nat) (h : j ≤ n) :
    (build_steps rI rD (n + 1)).intervals.getD j 0 =
      (build_steps rI rD n).intervals.getD j 0 := by
  have hlen := (build_steps_lengths rI rD n).2.1
  rw [build_steps, make_next_note]
  exact getD_concat_lt _ _ (by omega)

theorem build_steps_directions_stable (rI rD : Nat → Nat) (n j : Nat) (h : j ≤ n) :
    (build_steps rI rD (n + 1)).directions.getD j 0 =
      (build_steps rI rD n).directions.getD j 0 := by
  have hlen := (build_steps_lengths rI rD n).2.2
  rw [build_steps, make_next_note]
  exact getD_concat_lt _ _ (by omega)

theorem build_steps_intervals_last (rI rD : Nat → Nat) (n : Nat) :
    (build_steps rI rD (n + 1)).intervals.getD (n + 1) 0 =
      choose_interval (build_steps rI rD n) (n + 1) (rI (n + 1)) *
        choose_direction (build_steps rI rD n) (n + 1) (rD (n + 1)) := by
  have hlen := (build_steps_lengths rI rD n).2.1
  rw [build_steps, make_next_note]
  show ((build_steps rI rD n).intervals ++ [_]).getD (n + 1) 0 = _
  rw [← hlen, getD_concat_len]

theorem build_steps_directions_last (rI rD : Nat → Nat) (n : Nat) :
    (build_steps rI rD (n + 1)).directions.getD (n + 1) 0 =
      choose_direction (build_steps rI rD n) (n + 1) (rD (n + 1)) := by
  have hlen := (build_steps_lengths rI rD n).2.2
  rw [build_steps, make_next_note]
  show ((build_steps rI rD n).directions ++ [_]).getD (n + 1) 0 = _
  rw [← hlen, getD_concat_len]

theorem choose_interval_cases (st : Attempt) (i r : Nat) :
    choose_interval st i r = 1 ∨ choose_interval st i r = 2 ∨ choose_interval st i r = 3 := by
  rw [choose_interval]
  split
  · have h2 : r % 2 < 2 := Nat.mod_lt _ (by norm_num)
    interval_cases h : r % 2 <;> simp
  · have h3 : r % 3 < 3 := Nat.mod_lt _ (by norm_num)
    interval_cases h : r % 3 <;> simp

theorem choose_interval_restricted (st : Attempt) (i r : Nat)
    (h : 1 < i ∧ 2 < (st.intervals.getD (i - 1) 0).natAbs
      ∧ 2 < (st.intervals.getD (i - 2) 0).natAbs) :
    choose_interval st i r = 1 ∨ choose_interval st i r = 2 := by
  rw [choose_interval, if_pos h]
  have h2 : r % 2 < 2 := Nat.mod_lt _ (by norm_num)
  interval_cases h : r % 2 <;> simp

theorem build_steps_intervals_agree (rI rD : Nat → Nat) {m n j : Nat} (h : m ≤ n) (hj : j ≤ m) :
    (build_steps rI rD n).intervals.getD j 0 = (build_steps rI rD m).intervals.getD j 0 := by
  induction n with
  | zero => cases Nat.le_zero.mp h; rfl
  | succ n ih =>
    rcases Nat.lt_or_ge m (n + 1) with hm | hm
    · have hmn : m ≤ n := Nat.lt_succ_iff.mp hm
      rw [build_steps_intervals_stable rI rD n j (le_trans hj hmn)]
      exact ih hmn
    · have : m = n + 1 := le_antisymm h hm
      rw [this]

theorem build_steps_directions_agree (rI rD : Nat → Nat) {m n j : Nat} (h : m ≤ n) (hj : j ≤ m) :
    (build_steps rI rD n).directions.getD j 0 = (build_steps rI rD m).directions.getD j 0 := by
  induction n with
  | zero => cases Nat.le_zero.mp h; rfl
  | succ n ih =>
    rcases Nat.lt_or_ge m (n + 1) with hm | hm
    · have hmn : m ≤ n := Nat.lt_succ_iff.mp hm
      rw [build_steps_directions_stable rI rD n j (le_trans hj hmn)]
      exact ih hmn
    · have : m = n + 1 := le_antisymm h hm
      rw [this]

theorem build_steps_directions_pm (rI rD : Nat → Nat) (n : Nat) :
    ∀ j, 1 ≤ j → j ≤ n →
      (build_steps rI rD n).directions.getD j 0 = 1 ∨
      (build_steps rI rD n).directions.getD j 0 = -1 := by
  induction n with
  | zero => intro j h1 h2; omega
  | succ n ih =>
    intro j h1 h2
    rcases Nat.lt_or_ge j (n + 1) with hj | hj
    · rw [build_steps_directions_stable rI rD n j (Nat.lt_succ_iff.mp hj)]
      exact ih j h1 (Nat.lt_succ_iff.mp hj)
    · have hj' : j = n + 1 := le_antisymm h2 hj
      subst hj'
      rw [build_steps_directions_last, choose_direction]
      simp only [Nat.add_sub_cancel]
      split
      · next hc =>
        have hn : 1 ≤ n := by
          by_contra hn0
          have hn0 : n = 0 := by omega
          rw [hn0, build_steps_intervals_getD_zero] at hc
          simp at hc
        rcases ih n hn le_rfl with h | h <;> rw [h] <;> norm_num
      · have h2 : rD (n + 1) % 2 < 2 := Nat.mod_lt _ (by norm_num)
        interval_cases h : rD (n + 1) % 2 <;> simp

/-- Rule 11 invariant of the generator: a leap interval is always followed by a
direction opposite to the leap's direction. -/
theorem build_steps_leap_recovery (rI rD : Nat → Nat) (n j : Nat) (h : j + 1 ≤ n)
    (hleap : 2 < ((build_steps rI rD n).intervals.getD j 0).natAbs) :
    (build_steps rI rD n).directions.getD (j + 1) 0 =
      -((build_steps rI rD n).directions.getD j 0) := by
  have hj1 : 1 ≤ j := by
    by_contra hj0
    have hj0 : j = 0 := by omega
    rw [hj0, build_steps_intervals_getD_zero] at hleap
    simp at hleap
  have e1 : (build_steps rI rD n).intervals.getD j 0 =
      (build_steps rI rD j).intervals.getD j 0 :=
    build_steps_intervals_agree rI rD (by omega) le_rfl
  have e2 : (build_steps rI rD n).directions.getD (j + 1) 0 =
      (build_steps rI rD (j + 1)).directions.getD (j + 1) 0 :=
    build_steps_directions_agree rI rD h le_rfl
  have e3 : (build_steps rI rD n).directions.getD j 0 =
      (build_steps rI rD j).directions.getD j 0 :=
    build_steps_directions_agree rI rD (by omega) le_rfl
  rw [e2, e3, build_steps_directions_last, choose_direction]
  simp only [Nat.add_sub_cancel]
  rw [if_pos ⟨by omega, by rw [← e1]; exact hleap⟩]
  ring

/-- Rule 12 invariant of the generator: no three consecutive intervals all have
magnitude greater than 2. -/
theorem build_steps_no_three_leaps (rI rD : Nat → Nat) (n j : Nat) (h : j + 2 ≤ n) :
    ¬(2 < ((build_steps rI rD n).intervals.getD j 0).natAbs ∧
      2 < ((build_steps rI rD n).intervals.getD (j + 1) 0).natAbs ∧
      2 < ((build_steps rI rD n).intervals.getD (j + 2) 0).natAbs) := by
  rintro ⟨h1, h2, h3⟩
  have e1 : (build_steps rI rD n).intervals.getD j 0 =
      (build_steps rI rD (j + 1)).intervals.getD j 0 :=
    build_steps_intervals_agree rI rD (by omega) (by omega)
  have e2 : (build_steps rI rD n).intervals.getD (j + 1) 0 =
      (build_steps rI rD (j + 1)).intervals.getD (j + 1) 0 :=
    build_steps_intervals_agree rI rD (by omega) le_rfl
  have e3 : (build_steps rI rD n).intervals.getD (j + 2) 0 =
      (build_steps rI rD (j + 2)).intervals.getD (j + 2) 0 :=
    build_steps_intervals_agree rI rD h le_rfl
  rw [e3] at h3
  have hlast := build_steps_intervals_last rI rD (j + 1)
  rw [show j + 1 + 1 = j + 2 from rfl] at hlast
  rw [hlast] at h3
  have hcond : 1 < j + 2 ∧
      2 < ((build_steps rI rD (j + 1)).intervals.getD (j + 2 - 1) 0).natAbs ∧
      2 < ((build_steps rI rD (j + 1)).intervals.getD (j + 2 - 2) 0).natAbs := by
    refine ⟨by omega, ?_, ?_⟩
    · show 2 < ((build_steps rI rD (j + 1)).intervals.getD (j + 1) 0).natAbs
      rw [← e2]; exact h2
    · show 2 < ((build_steps rI rD (j + 1)).intervals.getD j 0).natAbs
      rw [← e1]; exact h1
  have hci := choose_interval_restricted (build_steps rI rD (j + 1)) (j + 2) (rI (j + 2)) hcond
  have hcd : (choose_direction (build_steps rI rD (j + 1)) (j + 2) (rD (j + 2))).natAbs ≤ 1 := by
    rw [choose_direction]
    split
    · next hc =>
      rcases build_steps_directions_pm rI rD (j + 1) (j + 2 - 1) (by omega) (by omega)
        with hd | hd <;> rw [hd] <;> norm_num
    · have hr : rD (j + 2) % 2 < 2 := Nat.mod_lt _ (by norm_num)
      interval_cases hh : rD (j + 2) % 2 <;> simp
  have habs : ((choose_interval (build_steps rI rD (j + 1)) (j + 2) (rI (j + 2)) *
      choose_direction (build_steps rI rD (j + 1)) (j + 2) (rD (j + 2)))).natAbs ≤ 2 := by
    rw [Int.natAbs_mul]
    rcases hci with hci | hci <;> rw [hci] <;> simp <;> omega
  omega

theorem loop_exhausted_iff (L : Nat) (scale : List Int) (rI rD : Nat → Nat → Nat) :
    ∀ n st, MAX_CYCLES + 1 - st.cycles ≤ n →
      ((make_notes_loop L scale rI rD st).2 = .exhausted ↔
        ∀ k, st.cycles ≤ k → k ≤ MAX_CYCLES →
          check_rules L scale (gen_attempt L (rI k) (rD k)) = false) := by
  intro n
  induction n with
  | zero =>
    intro st hn
    rw [make_notes_loop.eq_def, if_pos (by simp only [MAX_CYCLES] at *; omega)]
    constructor
    · intro _ k hk1 hk2
      exact absurd hk2 (by simp only [MAX_CYCLES] at *; omega)
    · intro _; rfl
  | succ n ih =>
    intro st hn
    rw [make_notes_loop.eq_def]
    by_cases hc : MAX_CYCLES < st.cycles
    · rw [if_pos hc]
      constructor
      · intro _ k hk1 hk2
        exact absurd hk2 (by omega)
      · intro _; rfl
    · rw [if_neg hc]
      by_cases hok : check_rules L scale (gen_attempt L (rI st.cycles) (rD st.cycles)) = true
      · simp only [hok, if_true]
        constructor
        · intro hres; exact absurd hres (by simp)
        · intro hall
          exact absurd (hall st.cycles le_rfl (by omega)) (by simp [hok])
      · have hok' : check_rules L scale (gen_attempt L (rI st.cycles) (rD st.cycles)) = false :=
          Bool.eq_false_iff.mpr hok
        simp only [hok', Bool.false_eq_true, if_false]
        have hih := ih
          { length := st.length, scale := st.scale,
            degrees := (gen_attempt L (rI st.cycles) (rD st.cycles)).degrees,
            intervals := (gen_attempt L (rI st.cycles) (rD st.cycles)).intervals,
            directions := (gen_attempt L (rI st.cycles) (rD st.cycles)).directions,
            cycles := st.cycles + 1 }
          (by simp only; omega)
        simp only at hih
        rw [hih]
        constructor
        · intro hall k hk1 hk2
          rcases eq_or_lt_of_le hk1 with rfl | hlt
          · exact hok'
          · exact hall k (by omega) hk2
        · intro hall k hk1 hk2
          exact hall k (by omega) hk2

theorem loop_accepted (L : Nat) (scale : List Int) (rI rD : Nat → Nat → Nat) :
    ∀ n st, MAX_CYCLES + 1 - st.cycles ≤ n →
      (make_notes_loop L scale rI rD st).2 = .accepted →
      ∃ k, st.cycles ≤ k ∧ k ≤ MAX_CYCLES ∧
        check_rules L scale (gen_attempt L (rI k) (rD k)) = true ∧
        (∀ j, st.cycles ≤ j → j < k →
          check_rules L scale (gen_attempt L (rI j) (rD j)) = false) ∧
        (make_notes_loop L scale rI rD st).1.cycles = k + 1 := by
  intro n
  induction n with
  | zero =>
    intro st hn hres
    rw [make_notes_loop.eq_def, if_pos (by omega)] at hres
    exact absurd hres (by simp)
  | succ n ih =>
    intro st hn hres
    rw [make_notes_loop.eq_def] at hres ⊢
    by_cases hc : MAX_CYCLES < st.cycles
    · rw [if_pos hc] at hres
      exact absurd hres (by simp)
    · rw [if_neg hc] at hres ⊢
      by_cases hok : check_rules L scale (gen_attempt L (rI st.cycles) (rD st.cycles)) = true
      · simp only [hok, if_true] at hres ⊢
        exact ⟨st.cycles, le_rfl, by omega, hok, fun j hj1 hj2 => absurd hj2 (by omega), rfl⟩
      · have hok' : check_rules L scale (gen_attempt L (rI st.cycles) (rD st.cycles)) = false :=
          Bool.eq_false_iff.mpr hok
        simp only [hok', Bool.false_eq_true, if_false] at hres ⊢
        obtain ⟨k, hk1, hk2, hk3, hk4, hk5⟩ := ih
          { length := st.length, scale := st.scale,
            degrees := (gen_attempt L (rI st.cycles) (rD st.cycles)).degrees,
            intervals := (gen_attempt L (rI st.cycles) (rD st.cycles)).intervals,
            directions := (gen_attempt L (rI st.cycles) (rD st.cycles)).directions,
            cycles := st.cycles + 1 }
          (by simp only; omega) hres
        simp only at hk1 hk4
        refine ⟨k, by omega, hk2, hk3, ?_, hk5⟩
        intro j hj1 hj2
        rcases eq_or_lt_of_le hj1 with rfl | hlt
        · exact hok'
        · exact hk4 j (by omega) hj2

theorem loop_final_attempt (L : Nat) (scale : List Int) (rI rD : Nat → Nat → Nat) :
    ∀ n st, MAX_CYCLES + 1 - st.cycles ≤ n → st.cycles ≤ MAX_CYCLES →
      ∃ k, st.cycles ≤ k ∧ k ≤ MAX_CYCLES ∧
        (make_notes_loop L scale rI rD st).1.degrees =
          (gen_attempt L (rI k) (rD k)).degrees := by
  intro n
  induction n with
  | zero =>
    intro st hn hle
    exact absurd hle (by omega)
  | succ n ih =>
    intro st hn hle
    rw [make_notes_loop.eq_def, if_neg (by omega)]
    by_cases hok : check_rules L scale (gen_attempt L (rI st.cycles) (rD st.cycles)) = true
    · simp only [hok, if_true]
      exact ⟨st.cycles, le_rfl, hle, rfl⟩
    · have hok' : check_rules L scale (gen_attempt L (rI st.cycles) (rD st.cycles)) = false :=
        Bool.eq_false_iff.mpr hok
      simp only [hok', Bool.false_eq_true, if_false]
      by_cases hlast : st.cycles = MAX_CYCLES
      · refine ⟨st.cycles, le_rfl, hle, ?_⟩
        rw [make_notes_loop.eq_def, if_pos (by simp only; omega)]
      · obtain ⟨k, hk1, hk2, hk3⟩ := ih
          { length := st.length, scale := st.scale,
            degrees := (gen_attempt L (rI st.cycles) (rD st.cycles)).degrees,
            intervals := (gen_attempt L (rI st.cycles) (rD st.cycles)).intervals,
            directions := (gen_attempt L (rI st.cycles) (rD st.cycles)).directions,
            cycles := st.cycles + 1 }
          (by simp only; omega) (by simp only; omega)
        simp only at hk1 hk3
        exact ⟨k, by omega, hk2, hk3⟩

/-! ### Claim theorems -/

/-- C5: in every full-length sequence produced by the generator, no three
consecutive intervals all have magnitude greater than 2, because when the two
intervals immediately preceding a step both have magnitude > 2 the magnitude
chosen for that step is 1 or 2 — so at most two consecutive leaps occur. -/
theorem C5_no_three_consecutive_leaps (L : Nat) (rI rD : Nat → Nat) (j : Nat)
    (h : j + 2 < L) :
    ¬(2 < ((gen_attempt L rI rD).intervals.getD j 0).natAbs ∧
      2 < ((gen_attempt L rI rD).intervals.getD (j + 1) 0).natAbs ∧
      2 < ((gen_attempt L rI rD).intervals.getD (j + 2) 0).natAbs) :=
  build_steps_no_three_leaps rI rD (L - 1) j (by omega)

/-- Witness for C5 at the concrete input `L = 8`, all-zero draw streams, `j = 0`. -/
theorem C5_no_three_consecutive_leaps_witness :
    0 + 2 < 8 ∧
    ¬(2 < ((gen_attempt 8 (fun _ => 0) (fun _ => 0)).intervals.getD 0 0).natAbs ∧
      2 < ((gen_attempt 8 (fun _ => 0) (fun _ => 0)).intervals.getD (0 + 1) 0).natAbs ∧
      2 < ((gen_attempt 8 (fun _ => 0) (fun _ => 0)).intervals.getD (0 + 2) 0).natAbs) :=
  ⟨by norm_num, C5_no_three_consecutive_leaps 8 (fun _ => 0) (fun _ => 0) 0 (by norm_num)⟩

/-- C6: in every full-length sequence produced by the generator, an interval of
magnitude greater than 2 is followed by a direction of the opposite sign, and
every direction after the sentinel is +1 or −1 (the free draw is from
`{+1, −1}`). -/
theorem C6_leap_recovery (L : Nat) (rI rD : Nat → Nat) (j : Nat) (h : j + 1 < L) :
    (2 < ((gen_attempt L rI rD).intervals.getD j 0).natAbs →
      (gen_attempt L rI rD).directions.getD (j + 1) 0 =
        -((gen_attempt L rI rD).directions.getD j 0)) ∧
    ((gen_attempt L rI rD).directions.getD (j + 1) 0 = 1 ∨
      (gen_attempt L rI rD).directions.getD (j + 1) 0 = -1) :=
  ⟨fun hleap => build_steps_leap_recovery rI rD (L - 1) j (by omega) hleap,
   build_steps_directions_pm rI rD (L - 1) (j + 1) (by omega) (by omega)⟩

/-- Witness for C6 at the concrete input `L = 8`, draw streams that force a
leap at step 1 (interval draw 2 picks magnitude 3), `j = 1`. -/
theorem C6_leap_recovery_witness :
    1 + 1 < 8 ∧
    ((2 < ((gen_attempt 8 (fun _ => 2) (fun _ => 0)).intervals.getD 1 0).natAbs →
      (gen_attempt 8 (fun _ => 2) (fun _ => 0)).directions.getD (1 + 1) 0 =
        -((gen_attempt 8 (fun _ => 2) (fun _ => 0)).directions.getD 1 0)) ∧
    ((gen_attempt 8 (fun _ => 2) (fun _ => 0)).directions.getD (1 + 1) 0 = 1 ∨
      (gen_attempt 8 (fun _ => 2) (fun _ => 0)).directions.getD (1 + 1) 0 = -1)) :=
  ⟨by norm_num, C6_leap_recovery 8 (fun _ => 2) (fun _ => 0) 1 (by norm_num)⟩

/-- C8: for every requested length outside `[8, 16]`, `make_notes` fails with
the configuration error before any attempt is made: the returned state is the
unmodified input state, so no generation step ran and no cycle was consumed. -/
theorem C8_config_error (st : CFState) (L : Nat) (scale : List Int)
    (rI rD : Nat → Nat → Nat) (h : L < 8 ∨ 16 < L) :
    make_notes st L scale rI rD = (st, MNResult.configError) := by
  rw [make_notes, if_pos h]

/-- Witness for C8 at the concrete input `L = 7` on a fresh instance. -/
theorem C8_config_error_witness :
    (7 < 8 ∨ 16 < 7) ∧
    make_notes initState 7 MAJOR_SCALE (fun _ _ => 0) (fun _ _ => 0) =
      (initState, MNResult.configError) :=
  ⟨by norm_num, C8_config_error initState 7 MAJOR_SCALE (fun _ _ => 0) (fun _ _ => 0)
    (by norm_num)⟩

theorem loop_preserves_scale (L : Nat) (scale : List Int) (rI rD : Nat → Nat → Nat) :
    ∀ n st, MAX_CYCLES + 1 - st.cycles ≤ n →
      (make_notes_loop L scale rI rD st).1.scale = st.scale := by
  intro n
  induction n with
  | zero =>
    intro st hn
    rw [make_notes_loop.eq_def, if_pos (by omega)]
  | succ n ih =>
    intro st hn
    rw [make_notes_loop.eq_def]
    by_cases hc : MAX_CYCLES < st.cycles
    · rw [if_pos hc]
    · rw [if_neg hc]
      by_cases hok : check_rules L scale (gen_attempt L (rI st.cycles) (rD st.cycles)) = true
      · simp only [hok, if_true]
      · have hok' : check_rules L scale (gen_attempt L (rI st.cycles) (rD st.cycles)) = false :=
          Bool.eq_false_iff.mpr hok
        simp only [hok', Bool.false_eq_true, if_false]
        exact ih
          { length := st.length, scale := st.scale,
            degrees := (gen_attempt L (rI st.cycles) (rD st.cycles)).degrees,
            intervals := (gen_attempt L (rI st.cycles) (rD st.cycles)).intervals,
            directions := (gen_attempt L (rI st.cycles) (rD st.cycles)).directions,
            cycles := st.cycles + 1 }
          (by simp only; omega)

/-- C7: with a valid length, `make_notes` ends in the exhaustion error exactly
when every one of the attempts generated at cycle-counter values `0 … 100000`
fails validation; and when an attempt is accepted, the final cycle counter is
one more than the index of the first accepted attempt (the counter starts at 0
and is incremented once per attempt). -/
theorem C7_exhaustion_ceiling (st : CFState) (L : Nat) (scale : List Int)
    (rI rD : Nat → Nat → Nat) (h8 : 8 ≤ L) (h16 : L ≤ 16) :
    ((make_notes st L scale rI rD).2 = MNResult.exhausted ↔
      ∀ k, k ≤ MAX_CYCLES → check_rules L scale (gen_attempt L (rI k) (rD k)) = false) ∧
    ((make_notes st L scale rI rD).2 = MNResult.accepted →
      ∃ k, k ≤ MAX_CYCLES ∧ check_rules L scale (gen_attempt L (rI k) (rD k)) = true ∧
        (∀ j, j < k → check_rules L scale (gen_attempt L (rI j) (rD j)) = false) ∧
        (make_notes st L scale rI rD).1.cycles = k + 1) := by
  rw [make_notes, if_neg (by omega)]
  constructor
  · rw [loop_exhausted_iff L scale rI rD (MAX_CYCLES + 1)
      { st with length := L, scale := scale, cycles := 0 } (by omega)]
    constructor
    · intro hall k hk
      exact hall k (Nat.zero_le k) hk
    · intro hall k _ hk
      exact hall k hk
  · intro hacc
    obtain ⟨k, hk1, hk2, hk3, hk4, hk5⟩ := loop_accepted L scale rI rD (MAX_CYCLES + 1)
      { st with length := L, scale := scale, cycles := 0 } (by omega) hacc
    exact ⟨k, hk2, hk3, fun j hj => hk4 j (Nat.zero_le j) hj, hk5⟩

/-- Witness for C7 at the concrete input `L = 8` on a fresh instance with
all-zero draw streams. -/
theorem C7_exhaustion_ceiling_witness :
    (8 ≤ 8 ∧ 8 ≤ 16) ∧
    (((make_notes initState 8 MAJOR_SCALE (fun _ _ => 0) (fun _ _ => 0)).2 =
        MNResult.exhausted ↔
      ∀ k, k ≤ MAX_CYCLES → check_rules 8 MAJOR_SCALE
        (gen_attempt 8 ((fun _ _ => 0) k) ((fun _ _ => 0) k)) = false) ∧
    ((make_notes initState 8 MAJOR_SCALE (fun _ _ => 0) (fun _ _ => 0)).2 =
        MNResult.accepted →
      ∃ k, k ≤ MAX_CYCLES ∧ check_rules 8 MAJOR_SCALE
          (gen_attempt 8 ((fun _ _ => 0) k) ((fun _ _ => 0) k)) = true ∧
        (∀ j, j < k → check_rules 8 MAJOR_SCALE
          (gen_attempt 8 ((fun _ _ => 0) j) ((fun _ _ => 0) j)) = false) ∧
        (make_notes initState 8 MAJOR_SCALE (fun _ _ => 0) (fun _ _ => 0)).1.cycles = k + 1)) :=
  ⟨by norm_num,
   C7_exhaustion_ceiling initState 8 MAJOR_SCALE (fun _ _ => 0) (fun _ _ => 0)
     (by norm_num) (by norm_num)⟩

/-- C2 counterexample: on a fresh instance, `make_notes 8` with all-zero draw
streams terminates with the exhaustion error — no sequence was ever accepted —
yet `get_notes` afterwards does not fail with the invalid-state error: it
returns the pitch list of the last rejected attempt. -/
theorem C2_get_notes_after_exhaustion :
    (make_notes initState 8 MAJOR_SCALE (fun _ _ => 0) (fun _ _ => 0)).2 =
      MNResult.exhausted ∧
    get_notes (make_notes initState 8 MAJOR_SCALE (fun _ _ => 0) (fun _ _ => 0)).1 60 =
      Except.ok [60, 62, 64, 65, 67, 69, 71, 72] := by
  rw [make_notes, if_neg (by norm_num)]
  constructor
  · rw [loop_exhausted_iff 8 MAJOR_SCALE (fun _ _ => 0) (fun _ _ => 0) (MAX_CYCLES + 1)
      { initState with length := 8, scale := MAJOR_SCALE, cycles := 0 } (by omega)]
    intro k _ _
    decide
  · obtain ⟨k, hk1, hk2, hdeg⟩ := loop_final_attempt 8 MAJOR_SCALE
      (fun _ _ => 0) (fun _ _ => 0) (MAX_CYCLES + 1)
      { initState with length := 8, scale := MAJOR_SCALE, cycles := 0 }
      (by omega) (Nat.zero_le _)
    have hsc := loop_preserves_scale 8 MAJOR_SCALE (fun _ _ => 0) (fun _ _ => 0)
      (MAX_CYCLES + 1)
      { initState with length := 8, scale := MAJOR_SCALE, cycles := 0 } (by omega)
    rw [get_notes, hdeg, hsc]
    rfl

/-- C2 amended: `get_notes` fails with the invalid-state error exactly when the
stored degree list is empty — so it does fail on a fresh instance before any
call to `make_notes`, but not after an exhausted `make_notes` run, which leaves
the last rejected attempt stored. -/
theorem C2_invalid_state_iff_empty (st : CFState) (base : Int) :
    (get_notes st base = Except.error PRError.invalidState ↔ st.degrees = []) ∧
    get_notes initState base = Except.error PRError.invalidState := by
  refine ⟨⟨?_, ?_⟩, rfl⟩
  · intro h
    by_contra hne
    rw [get_notes, if_neg (by simpa using hne)] at h
    exact absurd h (by simp)
  · intro h
    rw [get_notes, if_pos (by simp [h])]

theorem take_three_eq (l : List Int) (i : Nat) (h : i + 3 ≤ l.length) :
    (l.drop i).take 3 = [l.getD i 0, l.getD (i + 1) 0, l.getD (i + 2) 0] := by
  have h0 : i < l.length := by omega
  have h1 : i + 1 < l.length := by omega
  have h2 : i + 2 < l.length := by omega
  rw [List.drop_eq_getElem_cons h0]
  rw [List.drop_eq_getElem_cons h1]
  rw [show i + 1 + 1 = i + 2 from rfl]
  rw [List.drop_eq_getElem_cons h2]
  rw [List.getD_eq_getElem l 0 h0, List.getD_eq_getElem l 0 h1, List.getD_eq_getElem l 0 h2]
  rfl

/-- C1 amended: the directional-coherence predicate accepts a completed
attempt iff some window of 3 consecutive directions starting at an offset
`i < L - 3` is all +1 or all −1 — the code scans `range(0, L - 3)`, so the
window starting at the last conceivable offset `L - 3` (the one ending at the
final direction index `L - 1`) is never examined, and an attempt whose only
same-sign run starts there is rejected. -/
theorem C1_rule8_scan_iff (degrees directions : List Int)
    (hlen : directions.length = degrees.length) (h8 : 8 ≤ degrees.length) :
    check_rule_8 degrees directions = true ↔
      ∃ i, i < degrees.length - 3 ∧
        ((directions.getD i 0 = 1 ∧ directions.getD (i + 1) 0 = 1 ∧
            directions.getD (i + 2) 0 = 1) ∨
          (directions.getD i 0 = -1 ∧ directions.getD (i + 1) 0 = -1 ∧
            directions.getD (i + 2) 0 = -1)) := by
  rw [check_rule_8]
  simp only [Bool.or_eq_true, decide_eq_true_eq, List.countP_pos_iff, List.mem_map,
    List.mem_range, beq_iff_eq]
  constructor
  · rintro (⟨w, ⟨i, hi, rfl⟩, hw⟩ | ⟨w, ⟨i, hi, rfl⟩, hw⟩)
    · rw [take_three_eq directions i (by omega)] at hw
      simp only [List.cons.injEq, and_true] at hw
      exact ⟨i, hi, Or.inl ⟨hw.1, hw.2.1, hw.2.2⟩⟩
    · rw [take_three_eq directions i (by omega)] at hw
      simp only [List.cons.injEq, and_true] at hw
      exact ⟨i, hi, Or.inr ⟨hw.1, hw.2.1, hw.2.2⟩⟩
  · rintro ⟨i, hi, hcase⟩
    rcases hcase with ⟨ha, hb, hc⟩ | ⟨ha, hb, hc⟩
    · left
      refine ⟨(directions.drop i).take 3, ⟨i, hi, rfl⟩, ?_⟩
      rw [take_three_eq directions i (by omega), ha, hb, hc]
    · right
      refine ⟨(directions.drop i).take 3, ⟨i, hi, rfl⟩, ?_⟩
      rw [take_three_eq directions i (by omega), ha, hb, hc]

/-- C1 counterexample: a completed attempt of length 8 whose only same-sign
run of 3 directions starts at the last valid offset `L - 3 = 5` (as the claim
describes) is nevertheless rejected by the directional-coherence predicate. -/
theorem C1_rule8_misses_last_offset :
    (∃ i, 1 ≤ i ∧ i ≤ 8 - 3 ∧
      ((([0, 1, -1, 1, -1, 1, 1, 1] : List Int).getD i 0 = 1 ∧
        ([0, 1, -1, 1, -1, 1, 1, 1] : List Int).getD (i + 1) 0 = 1 ∧
        ([0, 1, -1, 1, -1, 1, 1, 1] : List Int).getD (i + 2) 0 = 1) ∨
       (([0, 1, -1, 1, -1, 1, 1, 1] : List Int).getD i 0 = -1 ∧
        ([0, 1, -1, 1, -1, 1, 1, 1] : List Int).getD (i + 1) 0 = -1 ∧
        ([0, 1, -1, 1, -1, 1, 1, 1] : List Int).getD (i + 2) 0 = -1))) ∧
    check_rule_8 [0, 1, 0, 1, 0, 1, 2, 3] [0, 1, -1, 1, -1, 1, 1, 1] = false :=
  ⟨⟨5, by norm_num, by norm_num, Or.inl (by norm_num)⟩, by decide⟩

/-- Witness for the amended C1 at a concrete completed attempt of length 8
with an interior run of 3 ascending directions. -/
theorem C1_rule8_scan_iff_witness :
    (([0, 1, 1, 1, -1, 1, -1, 1] : List Int).length =
        ([0, 1, 2, 3, 4, 5, 6, 7] : List Int).length ∧
      8 ≤ ([0, 1, 2, 3, 4, 5, 6, 7] : List Int).length) ∧
    (check_rule_8 [0, 1, 2, 3, 4, 5, 6, 7] [0, 1, 1, 1, -1, 1, -1, 1] = true ↔
      ∃ i, i < ([0, 1, 2, 3, 4, 5, 6, 7] : List Int).length - 3 ∧
        ((([0, 1, 1, 1, -1, 1, -1, 1] : List Int).getD i 0 = 1 ∧
          ([0, 1, 1, 1, -1, 1, -1, 1] : List Int).getD (i + 1) 0 = 1 ∧
          ([0, 1, 1, 1, -1, 1, -1, 1] : List Int).getD (i + 2) 0 = 1) ∨
        (([0, 1, 1, 1, -1, 1, -1, 1] : List Int).getD i 0 = -1 ∧
          ([0, 1, 1, 1, -1, 1, -1, 1] : List Int).getD (i + 1) 0 = -1 ∧
          ([0, 1, 1, 1, -1, 1, -1, 1] : List Int).getD (i + 2) 0 = -1))) :=
  ⟨⟨by norm_num, by norm_num⟩,
   C1_rule8_scan_iff [0, 1, 2, 3, 4, 5, 6, 7] [0, 1, 1, 1, -1, 1, -1, 1]
     (by norm_num) (by norm_num)⟩

theorem exists_getD_of_mem {l : List Int} {a : Int} (h : a ∈ l) :
    ∃ i, i < l.length ∧ l.getD i 0 = a := by
  obtain ⟨n, hn, he⟩ := List.getElem_of_mem h
  exact ⟨n, hn, by rw [List.getD_eq_getElem l 0 hn, he]⟩

theorem two_le_count_of_two (l : List Int) (a : Int) (i j : Nat) (hij : i < j)
    (hj : j < l.length) (hiv : l.getD i 0 = a) (hjv : l.getD j 0 = a) :
    2 ≤ l.count a := by
  have hi : i < l.length := by omega
  have hi' : i < (l.take j).length := by simp [List.length_take]; omega
  have h1 : a ∈ l.take j := by
    have he : (l.take j).getD i 0 = l.getD i 0 := by
      rw [List.getD_eq_getElem _ 0 hi', List.getD_eq_getElem l 0 hi, List.getElem_take]
    rw [← hiv, ← he, List.getD_eq_getElem _ 0 hi']
    exact List.getElem_mem hi'
  have h2 : a ∈ l.drop j := by
    rw [List.getD_eq_getElem l 0 hj] at hjv
    rw [List.drop_eq_getElem_cons hj, hjv]
    exact List.mem_cons_self a _
  have c1 : 1 ≤ (l.take j).count a := List.count_pos_iff.mpr h1
  have c2 : 1 ≤ (l.drop j).count a := List.count_pos_iff.mpr h2
  have := List.count_append a (l.take j) (l.drop j)
  rw [List.take_append_drop] at this
  omega

theorem two_le_count_exists (l : List Int) (a : Int) (h : 2 ≤ l.count a) :
    ∃ i j, i < j ∧ j < l.length ∧ l.getD i 0 = a ∧ l.getD j 0 = a := by
  induction l with
  | nil => simp at h
  | cons x xs ih =>
    rw [List.count_cons] at h
    by_cases hx : x = a
    · have hmem : a ∈ xs := by simp [hx] at h; exact h
      obtain ⟨k, hk, hkv⟩ := exists_getD_of_mem hmem
      exact ⟨0, k + 1, by omega, by simp only [List.length_cons]; omega,
        by simpa using hx, by simpa using hkv⟩
    · have h' : 2 ≤ xs.count a := by
        have : (x == a) = false := by
          simp [hx]
        rw [this] at h; simpa using h
      obtain ⟨i, j, hij, hjl, hiv, hjv⟩ := ih h'
      exact ⟨i + 1, j + 1, by omega, by simp only [List.length_cons]; omega,
        by simpa using hiv, by simpa using hjv⟩

/-- C3: the single-climax predicate accepts a completed attempt iff the
maximum degree is at least 3 and occurs at exactly one index, which lies at or
after `L / 2`; hence every accepted sequence (all rules true) satisfies the
predicate. -/
theorem C3_single_climax (degrees : List Int) (L : Nat) (hlen : degrees.length = L) (h8 : 8 ≤ L) :
    (check_rule_7 degrees L = true ↔
      (3 ≤ pyMax degrees ∧
       ∃ i, i < L ∧ degrees.getD i 0 = pyMax degrees ∧ L / 2 ≤ i ∧
         ∀ j, j < L → degrees.getD j 0 = pyMax degrees → j = i)) ∧
    (∀ scale ints dirs, check_rules L scale ⟨degrees, ints, dirs⟩ = true →
      check_rule_7 degrees L = true) := by
  have hne : degrees ≠ [] := by
    intro hnil
    rw [hnil] at hlen
    simp at hlen
    omega
  have hmem : pyMax degrees ∈ degrees := pyMax_mem hne
  have hidx : degrees.indexOf (pyMax degrees) < degrees.length :=
    List.indexOf_lt_length.mpr hmem
  have hidxv : degrees.getD (degrees.indexOf (pyMax degrees)) 0 = pyMax degrees := by
    rw [List.getD_eq_getElem _ 0 hidx]
    exact List.getElem_indexOf hidx
  constructor
  · rw [check_rule_7]
    constructor
    · intro h
      by_cases h1 : 1 < degrees.count (pyMax degrees)
      · rw [if_pos h1] at h; cases h
      · rw [if_neg h1] at h
        by_cases h2 : degrees.indexOf (pyMax degrees) < L / 2
        · rw [if_pos h2] at h; cases h
        · rw [if_neg h2] at h
          by_cases h3 : pyMax degrees < 3
          · rw [if_pos h3] at h; cases h
          · refine ⟨by omega, degrees.indexOf (pyMax degrees), by omega, hidxv, by omega, ?_⟩
            intro j hj hjv
            by_contra hne'
            rcases Nat.lt_or_ge j (degrees.indexOf (pyMax degrees)) with hlt | hge
            · have := two_le_count_of_two degrees (pyMax degrees) j
                (degrees.indexOf (pyMax degrees)) hlt hidx hjv hidxv
              omega
            · have hlt : degrees.indexOf (pyMax degrees) < j := by omega
              have := two_le_count_of_two degrees (pyMax degrees)
                (degrees.indexOf (pyMax degrees)) j hlt (by omega) hidxv hjv
              omega
    · rintro ⟨h3, i, hiL, hiv, hihalf, huniq⟩
      have hcount : degrees.count (pyMax degrees) ≤ 1 := by
        by_contra hc
        obtain ⟨i1, i2, hi12, hi2, hv1, hv2⟩ :=
          two_le_count_exists degrees (pyMax degrees) (by omega)
        have e1 := huniq i1 (by omega) hv1
        have e2 := huniq i2 (by omega) hv2
        omega
      have hieq : degrees.indexOf (pyMax degrees) = i :=
        huniq _ (by omega) hidxv
      rw [if_neg (by omega), if_neg (by omega), if_neg (by omega)]
  · intro scale ints dirs hall
    rw [check_rules] at hall
    simp only [Bool.and_eq_true] at hall
    exact hall.1.1.1.2

/-- Witness for C3 at the concrete completed attempt `[0,1,2,3,4,3,2,1]`,
`L = 8`. -/
theorem C3_single_climax_witness :
    (([0, 1, 2, 3, 4, 3, 2, 1] : List Int).length = 8 ∧ 8 ≤ 8) ∧
    ((check_rule_7 [0, 1, 2, 3, 4, 3, 2, 1] 8 = true ↔
      (3 ≤ pyMax [0, 1, 2, 3, 4, 3, 2, 1] ∧
       ∃ i, i < 8 ∧ ([0, 1, 2, 3, 4, 3, 2, 1] : List Int).getD i 0 =
          pyMax [0, 1, 2, 3, 4, 3, 2, 1] ∧ 8 / 2 ≤ i ∧
         ∀ j, j < 8 → ([0, 1, 2, 3, 4, 3, 2, 1] : List Int).getD j 0 =
            pyMax [0, 1, 2, 3, 4, 3, 2, 1] → j = i)) ∧
    (∀ scale ints dirs, check_rules 8 scale ⟨[0, 1, 2, 3, 4, 3, 2, 1], ints, dirs⟩ = true →
      check_rule_7 [0, 1, 2, 3, 4, 3, 2, 1] 8 = true)) :=
  ⟨⟨by norm_num, by norm_num⟩,
   C3_single_climax [0, 1, 2, 3, 4, 3, 2, 1] 8 (by norm_num) (by norm_num)⟩

/-- C4: the no-repeated-motive predicate accepts a completed attempt iff the
contiguous length-2 windows of the degree sequence are pairwise distinct (equal
windows only at equal start offsets); and the crafted degree list
`[0,2,4,2,0,2,4,2,0]` of length 9 fails the predicate. -/
theorem C4_no_repeated_motive (degrees : List Int) (L : Nat) (hlen : degrees.length = L) (h8 : 8 ≤ L) :
    (check_rule_10 degrees L = true ↔
      ∀ i j, i < L - 1 → j < L - 1 →
        (degrees.drop i).take 2 = (degrees.drop j).take 2 → i = j) ∧
    check_rule_10 [0, 2, 4, 2, 0, 2, 4, 2, 0] 9 = false := by
  refine ⟨?_, by decide⟩
  have hinst : (instBEqOfDecidableEq : BEq (List Int)) = List.instBEq :=
    lawful_beq_subsingleton _ _
  rw [check_rule_10, List.all_eq_true]
  constructor
  · intro hall i j hi hj heq
    have hnodup : ((List.range (L - 1)).map (fun i => (degrees.drop i).take 2)).Nodup := by
      rw [List.nodup_iff_count_le_one]
      intro a
      rw [hinst]
      by_cases hmem : a ∈ (List.range (L - 1)).map (fun i => (degrees.drop i).take 2)
      · simpa using hall a hmem
      · simp [List.count_eq_zero_of_not_mem hmem]
    exact List.inj_on_of_nodup_map hnodup (List.mem_range.mpr hi) (List.mem_range.mpr hj) heq
  · intro hinj a hmem
    simp only [decide_eq_true_eq]
    have hnodup : ((List.range (L - 1)).map (fun i => (degrees.drop i).take 2)).Nodup := by
      refine (List.nodup_map_iff_inj_on (List.nodup_range _)).mpr ?_
      intro x hx y hy hxy
      exact hinj x y (List.mem_range.mp hx) (List.mem_range.mp hy) hxy
    have hc := List.nodup_iff_count_le_one.mp hnodup a
    rwa [hinst] at hc

/-- Witness for C4 at the concrete completed attempt `[0,1,2,3,4,5,6,7]`,
`L = 8`. -/
theorem C4_no_repeated_motive_witness :
    (([0, 1, 2, 3, 4, 5, 6, 7] : List Int).length = 8 ∧ 8 ≤ 8) ∧
    ((check_rule_10 [0, 1, 2, 3, 4, 5, 6, 7] 8 = true ↔
      ∀ i j, i < 8 - 1 → j < 8 - 1 →
        (([0, 1, 2, 3, 4, 5, 6, 7] : List Int).drop i).take 2 =
          (([0, 1, 2, 3, 4, 5, 6, 7] : List Int).drop j).take 2 → i = j) ∧
    check_rule_10 [0, 2, 4, 2, 0, 2, 4, 2, 0] 9 = false) :=
  ⟨⟨by norm_num, by norm_num⟩,
   C4_no_repeated_motive [0, 1, 2, 3, 4, 5, 6, 7] 8 (by norm_num) (by norm_num)⟩

/-- C10: on any degree list with 0 at index 0 that passes the range-bound
predicate (as every accepted sequence does), every degree lies in [−7, 7], the
scale-table index computed by `get_notes` lies in [0, 6] — in bounds for the
7-element scale — and `get_notes` equals the single-octave-wrap formula through
that index. -/
theorem C10_scale_index_in_bounds (degrees : List Int) (h0 : degrees.getD 0 0 = 0)
    (hne : degrees ≠ []) (h6 : check_rule_6 degrees = true) :
    (∀ d ∈ degrees, (-7 ≤ d ∧ d ≤ 7) ∧ 0 ≤ scale_index d ∧ scale_index d < 7) ∧
    (∀ st : CFState, st.degrees = degrees → ∀ base : Int,
      get_notes st base = Except.ok (degrees.map (fun degree =>
        base + st.scale.getD (scale_index degree).toNat 0 +
          (if 6 < degree then 12 else if 0 ≤ degree then 0 else -12)))) := by
  have hlen : 0 < degrees.length := List.length_pos.mpr hne
  have h0mem : (0 : Int) ∈ degrees := by
    rw [List.getD_eq_getElem degrees 0 hlen] at h0
    rw [← h0]
    exact List.getElem_mem hlen
  have hminle : pyMin degrees ≤ 0 := pyMin_le h0mem
  have hmaxge : (0 : Int) ≤ pyMax degrees := le_pyMax h0mem
  have hrange : pyMax degrees - pyMin degrees ≤ 7 := by
    rw [check_rule_6] at h6
    simp only [MAX_RANGE, Bool.not_eq_true', decide_eq_false_iff_not, not_lt] at h6
    have : |pyMax degrees - pyMin degrees| ≤ 7 := h6
    rw [abs_le] at this
    exact this.2
  constructor
  · intro d hd
    have hdle : d ≤ pyMax degrees := le_pyMax hd
    have hdge : pyMin degrees ≤ d := pyMin_le hd
    have hb : -7 ≤ d ∧ d ≤ 7 := by constructor <;> omega
    refine ⟨hb, ?_, ?_⟩ <;> rw [scale_index] <;> split <;> try split
    all_goals omega
  · intro st hst base
    rw [get_notes, if_neg (by simp [hst, hne])]
    rw [hst]
    congr 1
    apply List.map_congr_left
    intro d hd
    rw [scale_index]
    by_cases hd6 : 6 < d
    · rw [if_pos hd6, if_pos hd6, if_pos hd6]
    · rw [if_neg hd6, if_neg hd6, if_neg hd6]
      by_cases hd0 : 0 ≤ d
      · rw [if_pos hd0, if_pos hd0, if_pos hd0]
        ring
      · rw [if_neg hd0, if_neg hd0, if_neg hd0]
        ring

/-- C9: on an accepted state (nonempty degrees, a scale table whose tonic
offset is 0, as both tables in `common/scales.py` are), `get_notes` returns a
pitch list of the same length whose element for each degree `d` is
`base + scale[d − 7] + 12` when `d > 6`, `base + scale[d]` when `0 ≤ d ≤ 6`,
and `base + scale[7 + d] − 12` when `d < 0`; consequently every degree equal
to 0 resolves to exactly the base pitch. -/
theorem C9_get_notes_formula (st : CFState) (base : Int) (hne : st.degrees ≠ [])
    (hscale0 : st.scale.getD 0 0 = 0) :
    ∃ notes : List Int, get_notes st base = Except.ok notes ∧
      notes.length = st.degrees.length ∧
      (∀ i, i < st.degrees.length →
        notes.getD i 0 =
          (if 6 < st.degrees.getD i 0 then
            base + st.scale.getD (st.degrees.getD i 0 - 7).toNat 0 + 12
          else if 0 ≤ st.degrees.getD i 0 then
            base + st.scale.getD (st.degrees.getD i 0).toNat 0
          else base + st.scale.getD (7 + st.degrees.getD i 0).toNat 0 - 12)) ∧
      (∀ i, i < st.degrees.length → st.degrees.getD i 0 = 0 → notes.getD i 0 = base) := by
  refine ⟨st.degrees.map (fun degree =>
      if 6 < degree then base + st.scale.getD (degree - 7).toNat 0 + 12
      else if 0 ≤ degree then base + st.scale.getD degree.toNat 0
      else base + st.scale.getD (7 + degree).toNat 0 - 12), ?_, by simp, ?_, ?_⟩
  · rw [get_notes, if_neg (by simp [hne])]
  · intro i hi
    have hi' : i < (st.degrees.map (fun degree =>
        if 6 < degree then base + st.scale.getD (degree - 7).toNat 0 + 12
        else if 0 ≤ degree then base + st.scale.getD degree.toNat 0
        else base + st.scale.getD (7 + degree).toNat 0 - 12)).length := by
      simpa using hi
    rw [List.getD_eq_getElem _ 0 hi', List.getElem_map, List.getD_eq_getElem _ 0 hi]
  · intro i hi hz
    have hi' : i < (st.degrees.map (fun degree =>
        if 6 < degree then base + st.scale.getD (degree - 7).toNat 0 + 12
        else if 0 ≤ degree then base + st.scale.getD degree.toNat 0
        else base + st.scale.getD (7 + degree).toNat 0 - 12)).length := by
      simpa using hi
    rw [List.getD_eq_getElem _ 0 hi', List.getElem_map, ← List.getD_eq_getElem _ 0 hi, hz]
    rw [if_neg (by norm_num), if_pos le_rfl]
    rw [show ((0 : Int).toNat) = 0 from rfl, hscale0]
    ring

/-- Witness for C10 at the concrete degree list `[0,1,2,3,4,5,6,7]`. -/
theorem C10_scale_index_in_bounds_witness :
    (([0, 1, 2, 3, 4, 5, 6, 7] : List Int).getD 0 0 = 0 ∧
      ([0, 1, 2, 3, 4, 5, 6, 7] : List Int) ≠ [] ∧
      check_rule_6 [0, 1, 2, 3, 4, 5, 6, 7] = true) ∧
    ((∀ d ∈ ([0, 1, 2, 3, 4, 5, 6, 7] : List Int),
        (-7 ≤ d ∧ d ≤ 7) ∧ 0 ≤ scale_index d ∧ scale_index d < 7) ∧
    (∀ st : CFState, st.degrees = [0, 1, 2, 3, 4, 5, 6, 7] → ∀ base : Int,
      get_notes st base = Except.ok (([0, 1, 2, 3, 4, 5, 6, 7] : List Int).map
        (fun degree =>
          base + st.scale.getD (scale_index degree).toNat 0 +
            (if 6 < degree then 12 else if 0 ≤ degree then 0 else -12))))) :=
  ⟨⟨by norm_num, by simp, by decide⟩,
   C10_scale_index_in_bounds [0, 1, 2, 3, 4, 5, 6, 7] (by norm_num) (by simp) (by decide)⟩

/-- Witness for C9 at a concrete accepted-shaped state with the major scale. -/
theorem C9_get_notes_formula_witness :
    ((⟨8, MAJOR_SCALE, [0, 3, 7, 0], [0, 0, 0, 0], [0, 0, 0, 0], 1⟩ : CFState).degrees ≠ [] ∧
      (⟨8, MAJOR_SCALE, [0, 3, 7, 0], [0, 0, 0, 0], [0, 0, 0, 0], 1⟩ : CFState).scale.getD 0 0 = 0) ∧
    (∃ notes : List Int,
      get_notes (⟨8, MAJOR_SCALE, [0, 3, 7, 0], [0, 0, 0, 0], [0, 0, 0, 0], 1⟩ : CFState) 60 =
        Except.ok notes ∧
      notes.length = (⟨8, MAJOR_SCALE, [0, 3, 7, 0], [0, 0, 0, 0], [0, 0, 0, 0], 1⟩ : CFState).degrees.length ∧
      (∀ i, i < (⟨8, MAJOR_SCALE, [0, 3, 7, 0], [0, 0, 0, 0], [0, 0, 0, 0], 1⟩ : CFState).degrees.length →
        notes.getD i 0 =
          (if 6 < (⟨8, MAJOR_SCALE, [0, 3, 7, 0], [0, 0, 0, 0], [0, 0, 0, 0], 1⟩ : CFState).degrees.getD i 0 then
            60 + (⟨8, MAJOR_SCALE, [0, 3, 7, 0], [0, 0, 0, 0], [0, 0, 0, 0], 1⟩ : CFState).scale.getD
              ((⟨8, MAJOR_SCALE, [0, 3, 7, 0], [0, 0, 0, 0], [0, 0, 0, 0], 1⟩ : CFState).degrees.getD i 0 - 7).toNat 0 + 12
          else if 0 ≤ (⟨8, MAJOR_SCALE, [0, 3, 7, 0], [0, 0, 0, 0], [0, 0, 0, 0], 1⟩ : CFState).degrees.getD i 0 then
            60 + (⟨8, MAJOR_SCALE, [0, 3, 7, 0], [0, 0, 0, 0], [0, 0, 0, 0], 1⟩ : CFState).scale.getD
              ((⟨8, MAJOR_SCALE, [0, 3, 7, 0], [0, 0, 0, 0], [0, 0, 0, 0], 1⟩ : CFState).degrees.getD i 0).toNat 0
          else 60 + (⟨8, MAJOR_SCALE, [0, 3, 7, 0], [0, 0, 0, 0], [0, 0, 0, 0], 1⟩ : CFState).scale.getD
              (7 + (⟨8, MAJOR_SCALE, [0, 3, 7, 0], [0, 0, 0, 0], [0, 0, 0, 0], 1⟩ : CFState).degrees.getD i 0).toNat 0 - 12)) ∧
      (∀ i, i < (⟨8, MAJOR_SCALE, [0, 3, 7, 0], [0, 0, 0, 0], [0, 0, 0, 0], 1⟩ : CFState).degrees.length →
        (⟨8, MAJOR_SCALE, [0, 3, 7, 0], [0, 0, 0, 0], [0, 0, 0, 0], 1⟩ : CFState).degrees.getD i 0 = 0 →
        notes.getD i 0 = 60)) :=
  ⟨⟨by simp, by decide⟩,
   C9_get_notes_formula ⟨8, MAJOR_SCALE, [0, 3, 7, 0], [0, 0, 0, 0], [0, 0, 0, 0], 1⟩ 60
     (by simp) (by decide)⟩

end CF
